import Mathlib

/-!
# Barrett reduction (`barrett.go`)

A shallow embedding of `NewBarrett` and `(*Barrett).Reduce`.

* `big.Int` values are `Int`; `Rsh` is the arithmetic shift `>>>`, `Div` and
  `Mod` are the Euclidean `/` and `%` of `Int`, `Exp(x, y, nil)` is `bigExp`.
* The field `_k` is a Go `uint`; it is a `Nat` here and every `uint`
  computation on it (`2*k`, `k-1`, `k+1`, the conversion `int64(k+1)`) is
  taken modulo `2^64`.
* The final `for` loop of `Reduce` is run with a bound on the number of
  iterations (`fuel`); `none` means that the loop is still running.
* `NewBarrett` reads the size of the modulus through `math.Log2` of a
  `float64`.  The outcome of each comparison `bit <= t` is supplied by a
  parameter `le : BitCmp`; `BitCmp.Sound` lists what is used about it.
-/

namespace BarrettReduce

set_option maxRecDepth 100000

/-! ## Data model -/

/-- The `Barrett` struct: modulus `_p`, precomputed factor `_u`, word size `_k`. -/
structure Barrett where
  _p : Int
  _u : Int
  _k : Nat
deriving DecidableEq, Repr

/-- What a call of `Reduce` hands back: `(nil, err)` or `(r, nil)`. -/
inductive Result where
  | err (msg : String) : Result
  | ok (r : Int) : Result
deriving DecidableEq, Repr

/-- Number of values of a Go `uint` on a 64-bit target. -/
def uintSize : Nat := 2 ^ 64

/-- The `uint` product `2 * k`. -/
def uintDouble (k : Nat) : Nat := (2 * k) % uintSize

/-- The `uint` difference `k - 1` (wraps to `2^64 - 1` at `k = 0`). -/
def uintPred (k : Nat) : Nat := (k + (uintSize - 1)) % uintSize

/-- The `uint` sum `k + 1`. -/
def uintSucc (k : Nat) : Nat := (k + 1) % uintSize

/-- The conversion `int64(n)` of a `uint` value: the same 64 bits read as
two's complement. -/
def toInt64 (n : Nat) : Int :=
  if n % uintSize < 2 ^ 63 then ((n % uintSize : Nat) : Int)
  else ((n % uintSize : Nat) : Int) - (uintSize : Int)

/-- The call `new(big.Int).Exp(x, y, nil)`: `x ^ y`, and `1` when `y ≤ 0`. -/
def bigExp (x y : Int) : Int :=
  if y ≤ 0 then 1 else x ^ y.toNat

/-- Number of binary digits of `n`, by repeated halving (at most `fuel` times). -/
def bitLenAux : Nat → Nat → Nat
  | 0, _ => 0
  | fuel + 1, n => if n = 0 then 0 else bitLenAux fuel (n / 2) + 1

/-- The call `x.BitLen()`: number of bits of `|x|`, `0` for `x = 0`. -/
def bitLen (x : Int) : Nat := bitLenAux x.natAbs x.natAbs

/-! ## `NewBarrett` -/

/-- Outcome of the comparison `bit <= t` in `NewBarrett`, where
`bit = math.Log2(f)` and `f` is the `float64` nearest to the modulus `p`
(obtained through `big.ParseFloat` and `Float64`). -/
abbrev BitCmp := Int → Nat → Bool

/-- The `switch` of `NewBarrett`: the first tier whose comparison succeeds,
and the zero value of `uint` when none does. -/
def selectK (le : BitCmp) (p : Int) : Nat :=
  if le p 16 then 16
  else if le p 32 then 32
  else if le p 64 then 64
  else if le p 128 then 128
  else if le p 256 then 256
  else 0

/-- The constructor `NewBarrett(p)`.  `none` stands for the run-time panic of
`u.Div(u, p)` at `p = 0`; otherwise a `Barrett` value is returned. -/
def NewBarrett (le : BitCmp) (p : Int) : Option Barrett :=
  let k := selectK le p
  let u : Int := 1 * 2 ^ uintDouble k
  if p = 0 then none
  else some { _p := p, _u := u / p, _k := k }

/-! ## `Reduce` -/

/-- The message of the error returned by `Reduce`. -/
def rangeMsg : String := "z < b^(2k)"

/-- The loop `for r.Cmp(b._p) >= 0 { r.Sub(r, b._p) }`, run for at most `fuel`
iterations of its body. -/
def subLoop : Nat → Int → Int → Option Int
  | 0, p, r => if p ≤ r then none else some r
  | fuel + 1, p, r => if p ≤ r then subLoop fuel p (r - p) else some r

/-- The quotient estimate `q3` of `Reduce`: `q1 = z >> (k-1)`, `q2 = q1 * u`,
`q3 = q2 >> (k+1)`. -/
def Barrett.quotEst (b : Barrett) (z : Int) : Int :=
  let q1 := z >>> uintPred b._k
  let q2 := q1 * b._u
  q2 >>> uintSucc b._k

/-- The value of `r` when the final loop of `Reduce` is entered. -/
def Barrett.preLoop (b : Barrett) (z : Int) : Int :=
  let q1 := z >>> uintPred b._k
  let q2 := q1 * b._u
  let q3 := q2 >>> uintSucc b._k
  let k1 := bigExp 2 (toInt64 (uintSucc b._k))
  let r1 := z % k1
  let r2 := (q3 * b._p) % k1
  let r := r1 - r2
  if r < 0 then r + k1 else r

/-- The method `(*Barrett).Reduce`, with `fuel` bounding the final loop. -/
def Barrett.Reduce (b : Barrett) (fuel : Nat) (z : Int) : Option Result :=
  let x := z >>> uintDouble b._k
  if 1 ≤ x then some (Result.err rangeMsg)
  else (subLoop fuel b._p (b.preLoop z)).map Result.ok

/-! ## The floating-point comparison -/

/-- What the development uses about the comparisons `bit <= t` of `NewBarrett`,
for the thresholds `t ≤ 256`:
* `neg`: `math.Log2` of a negative number is `NaN`, and no comparison with
  `NaN` holds;
* `zero`: `math.Log2(0)` is `-Inf`;
* `below`: for `0 < p ≤ 2^t` the nearest `float64` is at most `2^t` and its
  logarithm is computed as at most `t`;
* `above`: for `p ≥ 2^(t+1)` the logarithm is computed as at least `t + 1`;
* `exact`: for `t ≤ 32` and `p > 2^t` the logarithm exceeds `t` by far more
  than the rounding error of `math.Log2`. -/
structure BitCmp.Sound (le : BitCmp) : Prop where
  neg : ∀ p t, p < 0 → le p t = false
  zero : ∀ t, le 0 t = true
  below : ∀ p t, t ≤ 256 → 0 < p → p ≤ 2 ^ t → le p t = true
  above : ∀ p t, t ≤ 256 → 2 ^ (t + 1) ≤ p → le p t = false
  exact : ∀ p t, t ≤ 32 → 2 ^ t < p → le p t = false

/-- The comparison as it comes out when the logarithm is computed without any
rounding: `log2 p ≤ t` exactly when `0 ≤ p ≤ 2^t`. -/
def exactLe : BitCmp := fun p t => decide (0 ≤ p ∧ p ≤ 2 ^ t)

/-! ## The scenario of `TestBarrettReduce` -/

/-- The constant `N` of `barrett_test.go`. -/
def N : Int := 0xfffffffffffffffffffffffffffffffebaaedce6af48a03bbfd25e8cd0364141

/-- The input `x` of `TestBarrettReduce`: `math.MaxInt64` raised to the power `8`. -/
def testX : Int := (2 ^ 63 - 1) ^ 8

/-! ## Machine-word arithmetic on `_k` -/

theorem uintDouble_eq {k : Nat} (hk : k < 2 ^ 63) : uintDouble k = 2 * k := by
  unfold uintDouble uintSize
  exact Nat.mod_eq_of_lt (by omega)

theorem uintSucc_eq {k : Nat} (hk : k < 2 ^ 63) : uintSucc k = k + 1 := by
  unfold uintSucc uintSize
  exact Nat.mod_eq_of_lt (by omega)

theorem uintPred_eq {k : Nat} (hk1 : 1 ≤ k) (hk : k < 2 ^ 63) : uintPred k = k - 1 := by
  unfold uintPred uintSize
  have h : k + (2 ^ 64 - 1) = (k - 1) + 2 ^ 64 := by omega
  rw [h, Nat.add_mod_right]
  exact Nat.mod_eq_of_lt (by omega)

theorem bigExp_pos (y : Int) : 0 < bigExp 2 y := by
  unfold bigExp
  split
  · exact Int.one_pos
  · positivity

theorem bigExp_succ {k : Nat} (hk : k < 2 ^ 63 - 1) :
    bigExp 2 (toInt64 (uintSucc k)) = 2 ^ (k + 1) := by
  have hs : uintSucc k = k + 1 := uintSucc_eq (by omega)
  have hm : (k + 1) % uintSize = k + 1 := by
    unfold uintSize
    exact Nat.mod_eq_of_lt (by omega)
  have ht : toInt64 (k + 1) = ((k + 1 : Nat) : Int) := by
    unfold toInt64
    rw [hm, if_pos (by omega)]
  rw [hs, ht]
  unfold bigExp
  rw [if_neg (by omega), Int.toNat_ofNat]

/-! ## Bit length -/

theorem bitLenAux_le_iff (fuel n m : Nat) (h : n ≤ fuel) :
    bitLenAux fuel n ≤ m ↔ n < 2 ^ m := by
  induction fuel generalizing n m with
  | zero =>
    have hn : n = 0 := by omega
    subst hn
    simp [bitLenAux]
  | succ f ih =>
    unfold bitLenAux
    by_cases hn : n = 0
    · subst hn
      simp
    · rw [if_neg hn]
      cases m with
      | zero =>
        simp
        omega
      | succ m =>
        have hf : n / 2 ≤ f := by omega
        rw [Nat.add_le_add_iff_right, ih (n / 2) m hf, pow_succ]
        omega

theorem bitLen_le_iff (x : Int) (m : Nat) : bitLen x ≤ m ↔ x.natAbs < 2 ^ m :=
  bitLenAux_le_iff _ _ _ le_rfl

theorem bitLen_le_of_pos {p : Int} (hp : 0 < p) (m : Nat) : bitLen p ≤ m ↔ p < 2 ^ m := by
  rw [bitLen_le_iff]
  constructor
  · intro h
    have : (p.natAbs : Int) < ((2 ^ m : Nat) : Int) := by exact_mod_cast h
    rw [Int.natAbs_of_nonneg hp.le] at this
    simpa using this
  · intro h
    have h2 : (p.natAbs : Int) < ((2 ^ m : Nat) : Int) := by
      rw [Int.natAbs_of_nonneg hp.le]
      simpa using h
    exact_mod_cast h2

/-! ## The range check -/

theorem one_le_shiftRight_iff (z : Int) (n : Nat) : 1 ≤ z >>> n ↔ 2 ^ n ≤ z := by
  rw [Int.shiftRight_eq_div_pow]
  have h2 : (0 : Int) < ((2 ^ n : Nat) : Int) := by positivity
  rw [Int.le_ediv_iff_mul_le h2]
  simp

theorem reduce_err_iff (b : Barrett) (fuel : Nat) (z : Int) (msg : String) :
    b.Reduce fuel z = some (Result.err msg) ↔
      (2 ^ uintDouble b._k ≤ z ∧ msg = rangeMsg) := by
  unfold Barrett.Reduce
  by_cases hx : 1 ≤ z >>> uintDouble b._k
  · simp only [hx, if_true, Option.some.injEq, Result.err.injEq]
    rw [one_le_shiftRight_iff] at hx
    constructor
    · intro h
      exact ⟨hx, h.symm⟩
    · intro h
      exact h.2.symm
  · simp only [hx, if_false]
    rw [one_le_shiftRight_iff] at hx
    constructor
    · intro h
      cases hs : subLoop fuel b._p (b.preLoop z) with
      | none => rw [hs] at h; simp at h
      | some v => rw [hs] at h; simp at h
    · intro h
      exact absurd h.1 hx

theorem reduce_ok_iff (b : Barrett) (fuel : Nat) (z r : Int) :
    b.Reduce fuel z = some (Result.ok r) ↔
      (z < 2 ^ uintDouble b._k ∧ subLoop fuel b._p (b.preLoop z) = some r) := by
  unfold Barrett.Reduce
  by_cases hx : 1 ≤ z >>> uintDouble b._k
  · simp only [hx, if_true]
    rw [one_le_shiftRight_iff] at hx
    constructor
    · intro h
      simp at h
    · intro h
      omega
  · simp only [hx, if_false]
    rw [one_le_shiftRight_iff] at hx
    constructor
    · intro h
      cases hs : subLoop fuel b._p (b.preLoop z) with
      | none => rw [hs] at h; simp at h
      | some v =>
        rw [hs] at h
        simp at h
        exact ⟨by omega, by rw [h]⟩
    · intro h
      rw [h.2]
      rfl

/-! ## The final loop -/

theorem subLoop_lt (fuel : Nat) (p r v : Int) (h : subLoop fuel p r = some v) : v < p := by
  induction fuel generalizing r with
  | zero =>
    unfold subLoop at h
    split at h
    · simp at h
    · simp at h
      omega
  | succ f ih =>
    unfold subLoop at h
    split at h
    · exact ih _ h
    · simp at h
      omega

theorem subLoop_of_fuel (fuel : Nat) (p r : Int) (hp : 0 < p) (hr : 0 ≤ r)
    (hf : (r / p).toNat ≤ fuel) : subLoop fuel p r = some (r % p) := by
  induction fuel generalizing r with
  | zero =>
    have h0 : r / p ≤ 0 := by
      have := Int.toNat_eq_zero.mp (Nat.le_zero.mp hf)
      exact this
    have hlt : r < p := by
      have := Int.lt_ediv_add_one_mul_self r hp
      nlinarith
    unfold subLoop
    rw [if_neg (by omega), Int.emod_eq_of_lt hr hlt]
  | succ f ih =>
    unfold subLoop
    by_cases hle : p ≤ r
    · rw [if_pos hle]
      have hdiv : (r - p) / p = r / p - 1 := by
        have : r - p = r + (-1) * p := by ring
        rw [this, Int.add_mul_ediv_right _ _ (ne_of_gt hp)]
        ring
      have hmod : (r - p) % p = r % p := by
        have : r - p = r + (-1) * p := by ring
        rw [this, Int.add_mul_emod_self]
      have := ih (r - p) (by omega) (by rw [hdiv]; omega)
      rw [this, hmod]
    · rw [if_neg hle, Int.emod_eq_of_lt hr (by omega)]

theorem subLoop_none_of_nonpos (fuel : Nat) (p r : Int) (hp : p ≤ 0) (hr : p ≤ r) :
    subLoop fuel p r = none := by
  induction fuel generalizing r with
  | zero =>
    unfold subLoop
    rw [if_pos hr]
  | succ f ih =>
    unfold subLoop
    rw [if_pos hr]
    exact ih _ (by linarith [hp, hr])

theorem subLoop_eq_mod (fuel : Nat) (p r v : Int) (hr : 0 ≤ r)
    (h : subLoop fuel p r = some v) : v = r % p := by
  induction fuel generalizing r with
  | zero =>
    unfold subLoop at h
    split at h
    · simp at h
    · simp at h
      rw [← h, Int.emod_eq_of_lt hr (by omega)]
  | succ f ih =>
    unfold subLoop at h
    split at h
    · have := ih (r - p) (by omega) h
      rw [this]
      have : r - p = r + (-1) * p := by ring
      rw [this, Int.add_mul_emod_self]
    · simp at h
      rw [← h, Int.emod_eq_of_lt hr (by omega)]

theorem subLoop_fuel_ge (fuel : Nat) (p r v : Int) (hp : 0 < p) (hr : 0 ≤ r)
    (h : subLoop fuel p r = some v) : (r / p).toNat ≤ fuel := by
  induction fuel generalizing r with
  | zero =>
    unfold subLoop at h
    split at h
    · simp at h
    · rw [Int.ediv_eq_zero_of_lt hr (by omega)]
      simp
  | succ f ih =>
    unfold subLoop at h
    split at h
    · have hdiv : (r - p) / p = r / p - 1 := by
        have : r - p = r + (-1) * p := by ring
        rw [this, Int.add_mul_ediv_right _ _ (ne_of_gt hp)]
        ring
      have := ih (r - p) (by omega) h
      rw [hdiv] at this
      omega
    · rw [Int.ediv_eq_zero_of_lt hr (by omega)]
      simp

theorem subLoop_of_lt (fuel : Nat) (p r : Int) (h : r < p) : subLoop fuel p r = some r := by
  cases fuel <;> unfold subLoop <;> rw [if_neg (by omega)]

/-! ## The value entering the loop -/

theorem preLoop_bounds (b : Barrett) (z : Int) :
    0 ≤ b.preLoop z ∧ b.preLoop z < bigExp 2 (toInt64 (uintSucc b._k)) := by
  have hk1 := bigExp_pos (toInt64 (uintSucc b._k))
  unfold Barrett.preLoop
  simp only
  have h1 := Int.emod_nonneg z (ne_of_gt hk1)
  have h2 := Int.emod_lt_of_pos z hk1
  have h3 := Int.emod_nonneg ((z >>> uintPred b._k * b._u) >>> uintSucc b._k * b._p)
    (ne_of_gt hk1)
  have h4 := Int.emod_lt_of_pos ((z >>> uintPred b._k * b._u) >>> uintSucc b._k * b._p) hk1
  split <;> constructor <;> omega

/-- On an input already below the modulus the quotient estimate is `0`, and
the value entering the loop is the input itself. -/
theorem preLoop_of_lt {p r : Int} {k : Nat} (hk1 : 1 ≤ k) (hk : k < 2 ^ 63 - 1)
    (hp : 0 < p) (hr : 0 ≤ r) (hrp : r < p) (hpk : p < 2 ^ (k + 1)) :
    Barrett.preLoop ⟨p, 2 ^ (2 * k) / p, k⟩ r = r := by
  have hA : (0 : Int) < 2 ^ (k - 1) := by positivity
  have hB : (0 : Int) < 2 ^ (k + 1) := by positivity
  have hsplit : (2 : Int) ^ (2 * k) = 2 ^ (k + 1) * 2 ^ (k - 1) := by
    rw [← pow_add]
    congr 1
    omega
  have hq1 : 0 ≤ r / 2 ^ (k - 1) := Int.ediv_nonneg hr hA.le
  have hu : (0 : Int) ≤ 2 ^ (2 * k) / p := Int.ediv_nonneg (by positivity) hp.le
  have hq1A : r / 2 ^ (k - 1) * 2 ^ (k - 1) ≤ r := Int.ediv_mul_le r (ne_of_gt hA)
  have hup : 2 ^ (2 * k) / p * p ≤ 2 ^ (2 * k) := Int.ediv_mul_le _ (ne_of_gt hp)
  have hprod : r / 2 ^ (k - 1) * (2 ^ (2 * k) / p) < 2 ^ (k + 1) := by
    by_contra hc
    have hc2 : (2 : Int) ^ (k + 1) ≤ r / 2 ^ (k - 1) * (2 ^ (2 * k) / p) := not_lt.mp hc
    have h1 : (2 : Int) ^ (k + 1) * (2 ^ (k - 1) * p) ≤
        r / 2 ^ (k - 1) * (2 ^ (2 * k) / p) * (2 ^ (k - 1) * p) :=
      mul_le_mul_of_nonneg_right hc2 (by positivity)
    have h2 : r / 2 ^ (k - 1) * (2 ^ (2 * k) / p) * (2 ^ (k - 1) * p) =
        (r / 2 ^ (k - 1) * 2 ^ (k - 1)) * (2 ^ (2 * k) / p * p) := by ring
    have h3 : (r / 2 ^ (k - 1) * 2 ^ (k - 1)) * (2 ^ (2 * k) / p * p) ≤ r * 2 ^ (2 * k) :=
      mul_le_mul hq1A hup (mul_nonneg hu hp.le) hr
    have h4 : r * 2 ^ (2 * k) < p * 2 ^ (2 * k) :=
      mul_lt_mul_of_pos_right hrp (by positivity)
    have h5 : (2 : Int) ^ (k + 1) * (2 ^ (k - 1) * p) = p * 2 ^ (2 * k) := by
      rw [hsplit]
      ring
    linarith
  have hq3 : (r / 2 ^ (k - 1) * (2 ^ (2 * k) / p)) / 2 ^ (k + 1) = 0 :=
    Int.ediv_eq_zero_of_lt (mul_nonneg hq1 hu) hprod
  unfold Barrett.preLoop
  simp only
  rw [bigExp_succ hk, uintPred_eq hk1 (by omega), uintSucc_eq (by omega),
    Int.shiftRight_eq_div_pow, Int.shiftRight_eq_div_pow]
  push_cast
  rw [hq3, zero_mul, Int.zero_emod, sub_zero, Int.emod_eq_of_lt hr (lt_trans hrp hpk),
    if_neg (by omega)]

/-! ## The word size chosen by `NewBarrett` -/

theorem exactLe_sound : BitCmp.Sound exactLe where
  neg := by
    intro p t hp
    simp only [exactLe, decide_eq_false_iff_not]
    omega
  zero := by
    intro t
    simp only [exactLe, decide_eq_true_eq]
    exact ⟨le_rfl, by positivity⟩
  below := by
    intro p t _ hp hle
    simp only [exactLe, decide_eq_true_eq]
    exact ⟨hp.le, hle⟩
  above := by
    intro p t _ h
    simp only [exactLe, decide_eq_false_iff_not]
    have : (2 : Int) ^ t < 2 ^ (t + 1) := by
      rw [pow_succ]
      have : (0 : Int) < 2 ^ t := by positivity
      omega
    omega
  exact := by
    intro p t _ h
    simp only [exactLe, decide_eq_false_iff_not]
    omega

theorem selectK_cases (le : BitCmp) (p : Int) :
    selectK le p = 16 ∨ selectK le p = 32 ∨ selectK le p = 64 ∨ selectK le p = 128 ∨
      selectK le p = 256 ∨ selectK le p = 0 := by
  unfold selectK
  split_ifs <;> simp

theorem uintDouble_selectK (le : BitCmp) (p : Int) :
    uintDouble (selectK le p) = 2 * selectK le p := by
  apply uintDouble_eq
  rcases selectK_cases le p with h | h | h | h | h | h <;> rw [h] <;> norm_num

theorem selectK_le_true (le : BitCmp) (p : Int) (h : selectK le p ≠ 0) :
    le p (selectK le p) = true := by
  unfold selectK at h ⊢
  split_ifs at h ⊢ <;> simp_all

theorem selectK_of_neg {le : BitCmp} (hs : le.Sound) {p : Int} (hp : p < 0) :
    selectK le p = 0 := by
  unfold selectK
  simp [hs.neg p _ hp]

theorem selectK_zero {le : BitCmp} (hs : le.Sound) : selectK le 0 = 16 := by
  unfold selectK
  simp [hs.zero 16]

/-- For a positive modulus below `2^256` the chosen size is one of the tiers,
no tier `t` with `p ≤ 2^t` is skipped, every smaller tier `t` has `2^t < p`,
and `p < 2^(k+1)`. -/
theorem selectK_spec {le : BitCmp} (hs : le.Sound) {p : Int} (hp : 0 < p)
    (h256 : p ≤ 2 ^ 256) :
    (selectK le p = 16 ∨ selectK le p = 32 ∨ selectK le p = 64 ∨ selectK le p = 128 ∨
      selectK le p = 256) ∧
    p < 2 ^ (selectK le p + 1) ∧
    (∀ t, (t = 16 ∨ t = 32 ∨ t = 64 ∨ t = 128 ∨ t = 256) →
      (p ≤ 2 ^ t → selectK le p ≤ t) ∧ (t < selectK le p → 2 ^ t < p)) := by
  have hb : ∀ t, t ≤ 256 → le p t = false → 2 ^ t < p := by
    intro t ht hf
    by_contra hc
    have := hs.below p t ht hp (by omega)
    rw [this] at hf
    exact Bool.noConfusion hf
  have ha : ∀ t, t ≤ 256 → le p t = true → p < 2 ^ (t + 1) := by
    intro t ht hf
    by_contra hc
    have := hs.above p t ht (by omega)
    rw [this] at hf
    exact Bool.noConfusion hf
  have h256t := hs.below p 256 le_rfl hp h256
  unfold selectK
  cases h16 : le p 16
  · cases h32 : le p 32
    · cases h64 : le p 64
      · cases h128 : le p 128
        · have b16 := hb 16 (by norm_num) h16
          have b32 := hb 32 (by norm_num) h32
          have b64 := hb 64 (by norm_num) h64
          have b128 := hb 128 (by norm_num) h128
          have a256 := ha 256 (by norm_num) h256t
          simp only [h256t, if_true, Bool.false_eq_true, if_false]
          refine ⟨by simp, a256, ?_⟩
          rintro t (rfl | rfl | rfl | rfl | rfl) <;> constructor <;> intro h <;> omega
        · have b16 := hb 16 (by norm_num) h16
          have b32 := hb 32 (by norm_num) h32
          have b64 := hb 64 (by norm_num) h64
          have a128 := ha 128 (by norm_num) h128
          simp only [if_true, Bool.false_eq_true, if_false]
          refine ⟨by simp, a128, ?_⟩
          rintro t (rfl | rfl | rfl | rfl | rfl) <;> constructor <;> intro h <;> omega
      · have b16 := hb 16 (by norm_num) h16
        have b32 := hb 32 (by norm_num) h32
        have a64 := ha 64 (by norm_num) h64
        simp only [if_true, Bool.false_eq_true, if_false]
        refine ⟨by simp, a64, ?_⟩
        rintro t (rfl | rfl | rfl | rfl | rfl) <;> constructor <;> intro h <;> omega
    · have b16 := hb 16 (by norm_num) h16
      have a32 := ha 32 (by norm_num) h32
      simp only [if_true, Bool.false_eq_true, if_false]
      refine ⟨by simp, a32, ?_⟩
      rintro t (rfl | rfl | rfl | rfl | rfl) <;> constructor <;> intro h <;> omega
  · have a16 := ha 16 (by norm_num) h16
    simp only [if_true]
    refine ⟨by simp, a16, ?_⟩
    rintro t (rfl | rfl | rfl | rfl | rfl) <;> constructor <;> intro h <;> omega

/-! ## Claims about `Reduce` on an arbitrary `Barrett` value -/

/-- C2. For a `Barrett` value with positive modulus, every value that `Reduce`
returns lies in `[0, _p)`; and whenever the range check passes, the loop does
finish: from some iteration bound on, `Reduce` returns a value. -/
theorem reduce_value_in_range (b : Barrett) (z : Int) (hp : 0 < b._p) :
    (∀ fuel r, b.Reduce fuel z = some (Result.ok r) → 0 ≤ r ∧ r < b._p) ∧
    (z < 2 ^ uintDouble b._k →
      ∃ n, ∀ fuel, n ≤ fuel → ∃ r, b.Reduce fuel z = some (Result.ok r)) := by
  constructor
  · intro fuel r h
    rw [reduce_ok_iff] at h
    have hpre := (preLoop_bounds b z).1
    have hv := subLoop_eq_mod fuel b._p (b.preLoop z) r hpre h.2
    rw [hv]
    exact ⟨Int.emod_nonneg _ (ne_of_gt hp), Int.emod_lt_of_pos _ hp⟩
  · intro hz
    refine ⟨(b.preLoop z / b._p).toNat, fun fuel hf => ⟨b.preLoop z % b._p, ?_⟩⟩
    rw [reduce_ok_iff]
    exact ⟨hz, subLoop_of_fuel fuel b._p (b.preLoop z) hp (preLoop_bounds b z).1 hf⟩

/-- Witness for C2: modulus `7`, word size `16`, input `100`. -/
theorem reduce_value_in_range_witness :
    (∀ fuel r, Barrett.Reduce ⟨7, 613566756, 16⟩ fuel 100 = some (Result.ok r) →
      0 ≤ r ∧ r < 7) ∧
    Barrett.Reduce ⟨7, 613566756, 16⟩ 14 100 = some (Result.ok 2) :=
  ⟨(reduce_value_in_range ⟨7, 613566756, 16⟩ 100 (by decide)).1, by decide⟩

/-- C3. For a `Barrett` value with word size `k` (any `k` whose double fits a
`uint`, so every size `NewBarrett` stores) and every `z ≥ 0`, `Reduce` returns
an error exactly when `z ≥ 2^(2k)`, and then never a value; `2^(2k)` is
rejected and `2^(2k) - 1` is not. -/
theorem reduce_error_iff_of_nonneg (b : Barrett) (fuel : Nat) (z : Int)
    (hk : b._k < 2 ^ 63) (_hz : 0 ≤ z) :
    ((∃ msg, b.Reduce fuel z = some (Result.err msg)) ↔ 2 ^ (2 * b._k) ≤ z) ∧
    (2 ^ (2 * b._k) ≤ z → ∀ r, b.Reduce fuel z ≠ some (Result.ok r)) ∧
    b.Reduce fuel (2 ^ (2 * b._k)) = some (Result.err rangeMsg) ∧
    (∀ msg, b.Reduce fuel (2 ^ (2 * b._k) - 1) ≠ some (Result.err msg)) := by
  have hd := uintDouble_eq hk
  refine ⟨?_, ?_, ?_, ?_⟩
  · constructor
    · rintro ⟨msg, h⟩
      rw [reduce_err_iff, hd] at h
      exact h.1
    · intro h
      exact ⟨rangeMsg, by rw [reduce_err_iff, hd]; exact ⟨h, rfl⟩⟩
  · intro h r hr
    rw [reduce_ok_iff, hd] at hr
    omega
  · rw [reduce_err_iff, hd]
    exact ⟨le_rfl, rfl⟩
  · intro msg h
    rw [reduce_err_iff, hd] at h
    omega

/-- Witness for C3: modulus `7`, word size `16`, input `2^32`. -/
theorem reduce_error_iff_of_nonneg_witness :
    Barrett.Reduce ⟨7, 613566756, 16⟩ 0 (2 ^ (2 * 16)) = some (Result.err rangeMsg) :=
  (reduce_error_iff_of_nonneg ⟨7, 613566756, 16⟩ 0 (2 ^ 32) (by decide) (by decide)).2.2.1

/-! ## Claims about `NewBarrett` followed by `Reduce` -/

theorem newBarrett_N {le : BitCmp} (hs : le.Sound) :
    NewBarrett le N = some ⟨N, 2 ^ 512 / N, 256⟩ := by
  have h16 := hs.above N 16 (by norm_num) (by decide)
  have h32 := hs.above N 32 (by norm_num) (by decide)
  have h64 := hs.above N 64 (by norm_num) (by decide)
  have h128 := hs.above N 128 (by norm_num) (by decide)
  have h256 := hs.below N 256 le_rfl (by decide) (by decide)
  have hk : selectK le N = 256 := by
    unfold selectK
    simp [h16, h32, h64, h128, h256]
  unfold NewBarrett
  simp only [hk]
  rw [if_neg (by decide)]
  rfl

/-- C4. For the modulus `N` of the test, `NewBarrett` stores word size `256`
and factor `⌊2^512 / N⌋`, and `Reduce` of `(2^63 - 1)^8` returns, without
error and without entering the loop body, the value `(2^63 - 1)^8 mod N`. -/
theorem reduce_test_scenario (le : BitCmp) (hs : le.Sound) :
    ∃ b, NewBarrett le N = some b ∧ b._k = 256 ∧ b._u = 2 ^ 512 / N ∧
      ∀ fuel, b.Reduce fuel testX = some (Result.ok (testX % N)) := by
  refine ⟨_, newBarrett_N hs, rfl, rfl, fun fuel => ?_⟩
  rw [reduce_ok_iff]
  refine ⟨by decide, ?_⟩
  have hpre : Barrett.preLoop ⟨N, 2 ^ 512 / N, 256⟩ testX = testX % N := by decide
  rw [hpre]
  exact subLoop_of_lt _ _ _ (Int.emod_lt_of_pos _ (by decide))

/-- Witness for C4: the comparison computed without rounding. -/
theorem reduce_test_scenario_witness :
    ∃ b, NewBarrett exactLe N = some b ∧ b._k = 256 ∧ b._u = 2 ^ 512 / N ∧
      ∀ fuel, b.Reduce fuel testX = some (Result.ok (testX % N)) :=
  reduce_test_scenario exactLe exactLe_sound

theorem newBarrett_eq (le : BitCmp) (p : Int) (hp : p ≠ 0) :
    NewBarrett le p = some ⟨p, 2 ^ (2 * selectK le p) / p, selectK le p⟩ := by
  unfold NewBarrett
  simp only [uintDouble_selectK, one_mul]
  rw [if_neg hp]

theorem newBarrett_small {le : BitCmp} (hs : le.Sound) {p : Int} (hp : 0 < p)
    (h : p ≤ 2 ^ 16) : NewBarrett le p = some ⟨p, 2 ^ 32 / p, 16⟩ := by
  have hk : selectK le p = 16 := by
    unfold selectK
    simp [hs.below p 16 (by norm_num) hp h]
  rw [newBarrett_eq le p (ne_of_gt hp), hk]

/-- C1 (the code at a failing input). For the 16-bit modulus `65353`,
`NewBarrett` stores word size `16` and factor `65719`; the input `4294934527`
is below `2^32`, `Reduce` accepts it and returns `354` whatever the iteration
bound, while `4294934527 mod 65353 = 720`. -/
theorem reduce_wrong_at_65353 (le : BitCmp) (hs : le.Sound) :
    NewBarrett le 65353 = some ⟨65353, 65719, 16⟩ ∧
    bitLen 65353 = 16 ∧ (0 : Int) ≤ 4294934527 ∧ (4294934527 : Int) < 2 ^ (2 * 16) ∧
    (∀ fuel, Barrett.Reduce ⟨65353, 65719, 16⟩ fuel 4294934527 = some (Result.ok 354)) ∧
    (4294934527 : Int) % 65353 = 720 := by
  refine ⟨?_, by decide, by decide, by decide, fun fuel => ?_, by decide⟩
  · rw [newBarrett_small hs (by decide) (by decide)]
    rfl
  · rw [reduce_ok_iff]
    refine ⟨by decide, ?_⟩
    have hpre : Barrett.preLoop ⟨65353, 65719, 16⟩ 4294934527 = 354 := by decide
    rw [hpre]
    exact subLoop_of_lt _ _ _ (by decide)

/-- Witness for C1: the comparison computed without rounding. -/
theorem reduce_wrong_at_65353_witness :
    NewBarrett exactLe 65353 = some ⟨65353, 65719, 16⟩ ∧
    Barrett.Reduce ⟨65353, 65719, 16⟩ 0 4294934527 = some (Result.ok 354) ∧
    (4294934527 : Int) % 65353 = 720 :=
  ⟨(reduce_wrong_at_65353 exactLe exactLe_sound).1,
    (reduce_wrong_at_65353 exactLe exactLe_sound).2.2.2.2.1 0,
    (reduce_wrong_at_65353 exactLe exactLe_sound).2.2.2.2.2⟩

/-! ## Claims about `NewBarrett` -/

/-- C5 (counterexample). At `p = 2^16`, a modulus of bit length `17`,
`NewBarrett` stores word size `16`: smaller than the bit length, and
`p < 2^16` fails. -/
theorem newBarrett_pow16_wordBits :
    (∀ le : BitCmp, le.Sound → NewBarrett le (2 ^ 16) = some ⟨2 ^ 16, 2 ^ 16, 16⟩) ∧
    bitLen (2 ^ 16) = 17 ∧ ¬ (17 ≤ 16) ∧ ¬ ((2 : Int) ^ 16 < 2 ^ 16) := by
  refine ⟨fun le hs => ?_, by decide, by decide, by decide⟩
  rw [newBarrett_small hs (by decide) le_rfl]
  rfl

/-- C5 (amended). For a modulus `p > 0` of bit length at most `256`,
`NewBarrett` returns a value whose word size `k` is one of `16, 32, 64, 128,
256`: the first of them at which the comparison of `math.Log2` succeeds.  So
`k ≤ t` for every tier `t` with `p ≤ 2^t`, `2^t < p` for every tier `t < k`,
`p < 2^(k+1)`, and `p ≤ 2^k` when `k ≤ 32`. -/
theorem newBarrett_wordBits (le : BitCmp) (hs : le.Sound) (p : Int) (hp : 0 < p)
    (hbits : bitLen p ≤ 256) :
    ∃ b, NewBarrett le p = some b ∧
      (b._k = 16 ∨ b._k = 32 ∨ b._k = 64 ∨ b._k = 128 ∨ b._k = 256) ∧
      le p b._k = true ∧
      p < 2 ^ (b._k + 1) ∧ (b._k ≤ 32 → p ≤ 2 ^ b._k) ∧
      ∀ t, (t = 16 ∨ t = 32 ∨ t = 64 ∨ t = 128 ∨ t = 256) →
        (p ≤ 2 ^ t → b._k ≤ t) ∧ (t < b._k → 2 ^ t < p) := by
  have h256 : p < 2 ^ 256 := (bitLen_le_of_pos hp 256).mp hbits
  obtain ⟨hmem, hlt, hmin⟩ := selectK_spec hs hp h256.le
  have hne : selectK le p ≠ 0 := by
    rcases hmem with h | h | h | h | h <;> rw [h] <;> norm_num
  have htrue := selectK_le_true le p hne
  refine ⟨_, newBarrett_eq le p (ne_of_gt hp), hmem, htrue, hlt, ?_, hmin⟩
  intro h32
  by_contra hc
  have := hs.exact p (selectK le p) h32 (by simpa using hc)
  simp only at htrue
  rw [this] at htrue
  exact Bool.noConfusion htrue

/-- Witness for C5 (amended): the modulus `N` of the test. -/
theorem newBarrett_wordBits_witness :
    ∃ b, NewBarrett exactLe N = some b ∧
      (b._k = 16 ∨ b._k = 32 ∨ b._k = 64 ∨ b._k = 128 ∨ b._k = 256) ∧
      exactLe N b._k = true ∧
      N < 2 ^ (b._k + 1) ∧ (b._k ≤ 32 → N ≤ 2 ^ b._k) ∧
      ∀ t, (t = 16 ∨ t = 32 ∨ t = 64 ∨ t = 128 ∨ t = 256) →
        (N ≤ 2 ^ t → b._k ≤ t) ∧ (t < b._k → 2 ^ t < N) :=
  newBarrett_wordBits exactLe exactLe_sound N (by decide) (by decide)

/-- C6. For a modulus `p > 0`, `NewBarrett` returns a value, and the value it
returns holds `_p = p` and `_u = ⌊2^(2·_k) / p⌋` for the `_k` it stores. -/
theorem newBarrett_fields (le : BitCmp) (p : Int) (hp : 0 < p) :
    (∃ b, NewBarrett le p = some b) ∧
    ∀ b, NewBarrett le p = some b → b._p = p ∧ b._u = 2 ^ (2 * b._k) / p := by
  have h := newBarrett_eq le p (ne_of_gt hp)
  refine ⟨⟨_, h⟩, fun b hb => ?_⟩
  rw [h] at hb
  cases hb
  exact ⟨rfl, rfl⟩

/-- Witness for C6: the modulus `N` of the test. -/
theorem newBarrett_fields_witness :
    (∃ b, NewBarrett exactLe N = some b) ∧
    ∀ b, NewBarrett exactLe N = some b → b._p = N ∧ b._u = 2 ^ (2 * b._k) / N :=
  newBarrett_fields exactLe N (by decide)

theorem reduce_zero_wordBits (p u : Int) (fuel : Nat) (z : Int) :
    (1 ≤ z → Barrett.Reduce ⟨p, u, 0⟩ fuel z = some (Result.err rangeMsg)) ∧
    (z ≤ 0 → p ≤ 0 → Barrett.Reduce ⟨p, u, 0⟩ fuel z = none) := by
  have hd : uintDouble 0 = 0 := by decide
  constructor
  · intro hz
    rw [reduce_err_iff, hd, pow_zero]
    exact ⟨hz, rfl⟩
  · intro hz hp
    have hx : ¬ (1 ≤ z >>> uintDouble 0) := by
      rw [one_le_shiftRight_iff, hd, pow_zero]
      omega
    unfold Barrett.Reduce
    simp only [hx, if_false]
    have hpre := (preLoop_bounds ⟨p, u, 0⟩ z).1
    rw [subLoop_none_of_nonpos fuel p _ hp (le_trans hp hpre)]
    rfl

/-- C7 (counterexample). For the negative modulus `-5`, `NewBarrett` does not
fail: it returns the value with `_p = -5`, `_u = 0`, `_k = 0`. -/
theorem newBarrett_neg_five :
    (∀ le : BitCmp, le.Sound → NewBarrett le (-5) = some ⟨-5, 0, 0⟩) ∧
    NewBarrett exactLe (-5) ≠ none := by
  refine ⟨fun le hs => ?_, by decide⟩
  rw [newBarrett_eq le (-5) (by decide), selectK_of_neg hs (by decide)]
  rfl

/-- C7 (amended). For `p = 0`, `NewBarrett` returns nothing (the division by
`p` panics).  For `p < 0` it returns the value with `_p = p`, `_k = 0` and
`_u = ⌊1 / p⌋`; on that value `Reduce` never returns a result: it reports the
range error for every `z ≥ 1`, and for `z ≤ 0` its final loop never exits. -/
theorem newBarrett_nonpos (le : BitCmp) (hs : le.Sound) (p : Int) (hp : p ≤ 0) :
    (p = 0 → NewBarrett le p = none) ∧
    (p < 0 → NewBarrett le p = some ⟨p, 1 / p, 0⟩ ∧
      ∀ fuel z,
        (1 ≤ z → Barrett.Reduce ⟨p, 1 / p, 0⟩ fuel z = some (Result.err rangeMsg)) ∧
        (z ≤ 0 → Barrett.Reduce ⟨p, 1 / p, 0⟩ fuel z = none)) := by
  constructor
  · intro h0
    unfold NewBarrett
    simp [h0]
  · intro hneg
    constructor
    · rw [newBarrett_eq le p (ne_of_lt hneg), selectK_of_neg hs hneg]
      rfl
    · intro fuel z
      have h := reduce_zero_wordBits p (1 / p) fuel z
      exact ⟨h.1, fun hz => h.2 hz hp⟩

/-- Witness for C7 (amended): the modulus `-5`. -/
theorem newBarrett_nonpos_witness :
    NewBarrett exactLe (-5) = some ⟨-5, 1 / (-5), 0⟩ ∧
    Barrett.Reduce ⟨-5, 1 / (-5), 0⟩ 10 0 = none :=
  ⟨((newBarrett_nonpos exactLe exactLe_sound (-5) (by decide)).2 (by decide)).1,
    (((newBarrett_nonpos exactLe exactLe_sound (-5) (by decide)).2 (by decide)).2 10 0).2
      (by decide)⟩

/-- C8 (counterexample). For `p = 2^256`, a modulus of bit length `257`,
`NewBarrett` does not fail: it returns the value with `_p = 2^256`,
`_u = 2^256`, `_k = 256`. -/
theorem newBarrett_pow256 :
    (∀ le : BitCmp, le.Sound →
      NewBarrett le (2 ^ 256) = some ⟨2 ^ 256, 2 ^ 256, 256⟩) ∧
    bitLen (2 ^ 256) = 257 ∧ NewBarrett exactLe (2 ^ 256) ≠ none := by
  refine ⟨fun le hs => ?_, by decide, by decide⟩
  have h16 := hs.above (2 ^ 256) 16 (by norm_num) (by norm_num)
  have h32 := hs.above (2 ^ 256) 32 (by norm_num) (by norm_num)
  have h64 := hs.above (2 ^ 256) 64 (by norm_num) (by norm_num)
  have h128 := hs.above (2 ^ 256) 128 (by norm_num) (by norm_num)
  have h256 := hs.below (2 ^ 256) 256 le_rfl (by norm_num) le_rfl
  have hk : selectK le (2 ^ 256) = 256 := by
    unfold selectK
    rw [h16, h32, h64, h128, h256]
    rfl
  rw [newBarrett_eq le _ (by norm_num), hk]
  norm_num

/-- C8 (amended). For every `p ≥ 2^256`, `NewBarrett` returns a value: it holds
`_p = p`, a word size `_k` that is `256` or `0` (`256` at `p = 2^256`, `0` for
`p ≥ 2^257`, where no case of the `switch` applies), and
`_u = ⌊2^(2·_k) / p⌋`.  With `_k = 0` the value rejects every `z ≥ 1`. -/
theorem newBarrett_large (le : BitCmp) (hs : le.Sound) (p : Int) (hp : 2 ^ 256 ≤ p) :
    ∃ b, NewBarrett le p = some b ∧ b._p = p ∧ b._u = 2 ^ (2 * b._k) / p ∧
      (b._k = 256 ∨ b._k = 0) ∧
      (p = 2 ^ 256 → b._k = 256) ∧ (2 ^ 257 ≤ p → b._k = 0) ∧
      (b._k = 0 → ∀ fuel z, 1 ≤ z → b.Reduce fuel z = some (Result.err rangeMsg)) := by
  have h16 := hs.above p 16 (by norm_num) (by omega)
  have h32 := hs.above p 32 (by norm_num) (by omega)
  have h64 := hs.above p 64 (by norm_num) (by omega)
  have h128 := hs.above p 128 (by norm_num) (by omega)
  have hk : selectK le p = if le p 256 then 256 else 0 := by
    unfold selectK
    simp [h16, h32, h64, h128]
  refine ⟨_, newBarrett_eq le p (by omega), rfl, rfl, ?_, ?_, ?_, ?_⟩
  · simp only [hk]
    split <;> simp
  · intro he
    have := hs.below p 256 le_rfl (by omega) (le_of_eq he)
    simp only [hk, this, if_true]
  · intro h257
    have := hs.above p 256 le_rfl h257
    simp [hk, this]
  · intro h0 fuel z hz
    simp only at h0
    simp only [h0]
    exact (reduce_zero_wordBits p _ fuel z).1 hz

/-- Witness for C8 (amended): the modulus `2^257`. -/
theorem newBarrett_large_witness :
    ∃ b, NewBarrett exactLe (2 ^ 257) = some b ∧ b._k = 0 := by
  obtain ⟨b, hb, _, _, _, _, h0, _⟩ :=
    newBarrett_large exactLe exactLe_sound (2 ^ 257) (by norm_num)
  exact ⟨b, hb, h0 le_rfl⟩

/-- C9 (counterexample). The negative input `-1` is not rejected: on the value
that `NewBarrett` returns for the modulus `65353`, `Reduce` returns `65352`. -/
theorem reduce_neg_one_accepted :
    NewBarrett exactLe 65353 = some ⟨65353, 65719, 16⟩ ∧
    Barrett.Reduce ⟨65353, 65719, 16⟩ 0 (-1) = some (Result.ok 65352) ∧
    ¬ ((0 : Int) ≤ -1) := by
  decide

/-- C9 (amended). For a `Barrett` value with word size `k` (any `k` whose
double fits a `uint`) and every integer `z`, `Reduce` returns the range error
exactly when `z ≥ 2^(2k)`.  A negative `z` is never rejected: with a positive
modulus `Reduce` then returns a value in `[0, _p)`. -/
theorem reduce_rangeError_iff (b : Barrett) (z : Int) (hk : b._k < 2 ^ 63) :
    (∀ fuel, b.Reduce fuel z = some (Result.err rangeMsg) ↔ 2 ^ (2 * b._k) ≤ z) ∧
    (z < 0 → ∀ fuel msg, b.Reduce fuel z ≠ some (Result.err msg)) ∧
    (z < 0 → 0 < b._p → ∃ n, ∀ fuel, n ≤ fuel →
      ∃ r, b.Reduce fuel z = some (Result.ok r) ∧ 0 ≤ r ∧ r < b._p) := by
  have hd := uintDouble_eq hk
  have hpos : (0 : Int) < 2 ^ (2 * b._k) := by positivity
  refine ⟨fun fuel => ?_, ?_, ?_⟩
  · rw [reduce_err_iff, hd]
    exact ⟨fun h => h.1, fun h => ⟨h, rfl⟩⟩
  · intro hz fuel msg h
    rw [reduce_err_iff, hd] at h
    omega
  · intro hz hp
    refine ⟨(b.preLoop z / b._p).toNat, fun fuel hf => ⟨b.preLoop z % b._p, ?_, ?_, ?_⟩⟩
    · rw [reduce_ok_iff, hd]
      exact ⟨by omega, subLoop_of_fuel fuel b._p _ hp (preLoop_bounds b z).1 hf⟩
    · exact Int.emod_nonneg _ (ne_of_gt hp)
    · exact Int.emod_lt_of_pos _ hp

/-- Witness for C9 (amended): modulus `65353`, word size `16`, input `-1`. -/
theorem reduce_rangeError_iff_witness :
    Barrett.Reduce ⟨65353, 65719, 16⟩ 0 (-1) ≠ some (Result.err rangeMsg) ∧
    (Barrett.Reduce ⟨65353, 65719, 16⟩ 0 (2 ^ 32) = some (Result.err rangeMsg) ↔
      (2 : Int) ^ (2 * 16) ≤ 2 ^ 32) :=
  ⟨(reduce_rangeError_iff ⟨65353, 65719, 16⟩ (-1) (by decide)).2.1 (by decide) 0 rangeMsg,
    (reduce_rangeError_iff ⟨65353, 65719, 16⟩ (2 ^ 32) (by decide)).1 0⟩

/-- C10. For a modulus `p > 0` of bit length at most `256` and `z` with
`0 ≤ z < 2^(2·_k)`, `Reduce` on the value returned by `NewBarrett` returns a
value `r` (once the iteration bound is large enough); `r` is again a valid
input, `0 ≤ r < 2^(2·_k)`, and `Reduce` of `r` returns `r`. -/
theorem reduce_idempotent (le : BitCmp) (hs : le.Sound) (p z : Int) (hp : 0 < p)
    (hbits : bitLen p ≤ 256) (_hz : 0 ≤ z) :
    ∃ b, NewBarrett le p = some b ∧
      (z < 2 ^ (2 * b._k) →
        ∃ r, (∃ n, ∀ fuel, n ≤ fuel → b.Reduce fuel z = some (Result.ok r)) ∧
          0 ≤ r ∧ r < 2 ^ (2 * b._k) ∧
          ∀ fuel, b.Reduce fuel r = some (Result.ok r)) := by
  have h256 : p < 2 ^ 256 := (bitLen_le_of_pos hp 256).mp hbits
  obtain ⟨hmem, hlt, -⟩ := selectK_spec hs hp h256.le
  have hk1 : 1 ≤ selectK le p := by
    rcases hmem with h | h | h | h | h <;> rw [h] <;> norm_num
  have hk63 : selectK le p < 2 ^ 63 - 1 := by
    rcases hmem with h | h | h | h | h <;> rw [h] <;> norm_num
  have hd := uintDouble_selectK le p
  refine ⟨_, newBarrett_eq le p (ne_of_gt hp), fun hzlt => ?_⟩
  simp only at hzlt ⊢
  have hpre := preLoop_bounds ⟨p, 2 ^ (2 * selectK le p) / p, selectK le p⟩ z
  have hr0 := Int.emod_nonneg
    (Barrett.preLoop ⟨p, 2 ^ (2 * selectK le p) / p, selectK le p⟩ z) (ne_of_gt hp)
  have hrp := Int.emod_lt_of_pos
    (Barrett.preLoop ⟨p, 2 ^ (2 * selectK le p) / p, selectK le p⟩ z) hp
  have hpow : (2 : Int) ^ (selectK le p + 1) ≤ 2 ^ (2 * selectK le p) :=
    pow_le_pow_right₀ (by norm_num) (by omega)
  refine ⟨Barrett.preLoop ⟨p, 2 ^ (2 * selectK le p) / p, selectK le p⟩ z % p,
    ⟨(Barrett.preLoop ⟨p, 2 ^ (2 * selectK le p) / p, selectK le p⟩ z / p).toNat,
      fun fuel hf => ?_⟩, hr0, by omega, fun fuel => ?_⟩
  · rw [reduce_ok_iff]
    exact ⟨by simp only [hd]; exact hzlt, subLoop_of_fuel fuel p _ hp hpre.1 hf⟩
  · rw [reduce_ok_iff]
    refine ⟨by simp only [hd]; omega, ?_⟩
    simp only
    rw [preLoop_of_lt hk1 hk63 hp hr0 hrp hlt]
    exact subLoop_of_lt _ _ _ hrp

/-- Witness for C10: the modulus `N` and the input of the test. -/
theorem reduce_idempotent_witness :
    ∃ b, NewBarrett exactLe N = some b ∧
      (testX < 2 ^ (2 * b._k) →
        ∃ r, (∃ n, ∀ fuel, n ≤ fuel → b.Reduce fuel testX = some (Result.ok r)) ∧
          0 ≤ r ∧ r < 2 ^ (2 * b._k) ∧
          ∀ fuel, b.Reduce fuel r = some (Result.ok r)) :=
  reduce_idempotent exactLe exactLe_sound N testX (by decide) (by decide) (by decide)

/-! ## The quotient estimate -/

theorem preLoop_eq_quotEst (b : Barrett) (z : Int) :
    b.preLoop z =
      if z % bigExp 2 (toInt64 (uintSucc b._k)) -
          (b.quotEst z * b._p) % bigExp 2 (toInt64 (uintSucc b._k)) < 0 then
        z % bigExp 2 (toInt64 (uintSucc b._k)) -
          (b.quotEst z * b._p) % bigExp 2 (toInt64 (uintSucc b._k)) +
          bigExp 2 (toInt64 (uintSucc b._k))
      else
        z % bigExp 2 (toInt64 (uintSucc b._k)) -
          (b.quotEst z * b._p) % bigExp 2 (toInt64 (uintSucc b._k)) := rfl

theorem quotEst_eq {p u : Int} {k : Nat} (hk1 : 1 ≤ k) (hk : k < 2 ^ 63 - 1) (z : Int) :
    Barrett.quotEst ⟨p, u, k⟩ z = z / 2 ^ (k - 1) * u / 2 ^ (k + 1) := by
  unfold Barrett.quotEst
  simp only
  rw [uintPred_eq hk1 (by omega), uintSucc_eq (by omega), Int.shiftRight_eq_div_pow,
    Int.shiftRight_eq_div_pow]
  push_cast
  rfl

/-- The arithmetic behind Barrett's estimate, with `A = 2^(k-1)`, `B = 2^(k+1)`:
the estimate never exceeds the quotient, and the remainder it leaves is below
`A + 2p`. -/
theorem barrett_core (A B p z q1 u q3 : Int) (hA : 0 < A) (hB : 0 < B) (hp : 0 < p)
    (hz0 : 0 ≤ z) (hzM : z < A * B) (h1 : q1 * A ≤ z) (h1' : z < q1 * A + A)
    (h2 : u * p ≤ A * B) (h2' : A * B < u * p + p)
    (h3 : q3 * B ≤ q1 * u) (h3' : q1 * u < q3 * B + B) :
    q3 * p ≤ z ∧ z - q3 * p < A + 2 * p := by
  have hq1 : 0 ≤ q1 := by
    by_contra hc
    have : q1 + 1 ≤ 0 := by omega
    have := mul_nonpos_of_nonpos_of_nonneg this hA.le
    nlinarith
  have hq1B : q1 < B := by
    by_contra hc
    have : B * A ≤ q1 * A := mul_le_mul_of_nonneg_right (not_lt.mp hc) hA.le
    nlinarith
  have e1 : q3 * B * p ≤ q1 * u * p := mul_le_mul_of_nonneg_right h3 hp.le
  have e2 : q1 * (u * p) ≤ q1 * (A * B) := mul_le_mul_of_nonneg_left h2 hq1
  have e3 : q1 * A * B ≤ z * B := mul_le_mul_of_nonneg_right h1 hB.le
  have e4 : q1 * u * p < (q3 * B + B) * p := mul_lt_mul_of_pos_right h3' hp
  have e5 : q1 * (A * B) ≤ q1 * (u * p + p) := mul_le_mul_of_nonneg_left h2'.le hq1
  have e6 : z * B < (q1 * A + A) * B := mul_lt_mul_of_pos_right h1' hB
  have e7 : q1 * p < B * p := mul_lt_mul_of_pos_right hq1B hp
  constructor
  · have : q3 * p * B ≤ z * B := by nlinarith
    exact le_of_mul_le_mul_right this hB
  · have : (z - q3 * p) * B < (A + 2 * p) * B := by nlinarith
    exact lt_of_mul_lt_mul_right this hB.le

theorem pow_split (k : Nat) (hk1 : 1 ≤ k) :
    (2 : Int) ^ (k - 1) * 2 ^ (k + 1) = 2 ^ (2 * k) := by
  rw [← pow_add]
  congr 1
  omega

/-- With the factor `⌊2^(2k) / p⌋` the estimate `q3` satisfies `0 ≤ q3`,
`q3 * p ≤ z` and `z - q3 * p < 2^(k-1) + 2p`. -/
theorem quotEst_bounds {p : Int} {k : Nat} (hk1 : 1 ≤ k) (hk : k < 2 ^ 63 - 1)
    (hp : 0 < p) {z : Int} (hz0 : 0 ≤ z) (hz : z < 2 ^ (2 * k)) :
    0 ≤ Barrett.quotEst ⟨p, 2 ^ (2 * k) / p, k⟩ z ∧
    Barrett.quotEst ⟨p, 2 ^ (2 * k) / p, k⟩ z * p ≤ z ∧
    z - Barrett.quotEst ⟨p, 2 ^ (2 * k) / p, k⟩ z * p < 2 ^ (k - 1) + 2 * p := by
  have hA : (0 : Int) < 2 ^ (k - 1) := by positivity
  have hB : (0 : Int) < 2 ^ (k + 1) := by positivity
  have hAB := pow_split k hk1
  rw [quotEst_eq hk1 hk]
  have h1 := Int.ediv_mul_le z (ne_of_gt hA)
  have h1' : z < z / 2 ^ (k - 1) * 2 ^ (k - 1) + 2 ^ (k - 1) := by
    have := Int.lt_ediv_add_one_mul_self z hA
    linarith
  have h2 : 2 ^ (2 * k) / p * p ≤ 2 ^ (k - 1) * 2 ^ (k + 1) := by
    rw [hAB]
    exact Int.ediv_mul_le _ (ne_of_gt hp)
  have h2' : (2 : Int) ^ (k - 1) * 2 ^ (k + 1) < 2 ^ (2 * k) / p * p + p := by
    rw [hAB]
    have := Int.lt_ediv_add_one_mul_self ((2 : Int) ^ (2 * k)) hp
    linarith
  have h3 := Int.ediv_mul_le (z / 2 ^ (k - 1) * (2 ^ (2 * k) / p)) (ne_of_gt hB)
  have h3' : z / 2 ^ (k - 1) * (2 ^ (2 * k) / p) <
      z / 2 ^ (k - 1) * (2 ^ (2 * k) / p) / 2 ^ (k + 1) * 2 ^ (k + 1) + 2 ^ (k + 1) := by
    have := Int.lt_ediv_add_one_mul_self (z / 2 ^ (k - 1) * (2 ^ (2 * k) / p)) hB
    linarith
  have hcore := barrett_core (2 ^ (k - 1)) (2 ^ (k + 1)) p z (z / 2 ^ (k - 1))
    (2 ^ (2 * k) / p) (z / 2 ^ (k - 1) * (2 ^ (2 * k) / p) / 2 ^ (k + 1)) hA hB hp hz0
    (by rw [hAB]; exact hz) h1 h1' h2 h2' h3 h3'
  refine ⟨?_, hcore.1, by linarith [hcore.2]⟩
  exact Int.ediv_nonneg (mul_nonneg (Int.ediv_nonneg hz0 hA.le)
    (Int.ediv_nonneg (by positivity) hp.le)) hB.le

/-- Subtracting residues modulo `m` and adding `m` back when the difference is
negative recovers `a - b` whenever `0 ≤ a - b < m`. -/
theorem wrap_sub (a b m : Int) (hm : 0 < m) (h0 : 0 ≤ a - b) (h1 : a - b < m) :
    (if a % m - b % m < 0 then a % m - b % m + m else a % m - b % m) = a - b := by
  have ha0 := Int.emod_nonneg a (ne_of_gt hm)
  have ha1 := Int.emod_lt_of_pos a hm
  have hb0 := Int.emod_nonneg b (ne_of_gt hm)
  have hb1 := Int.emod_lt_of_pos b hm
  have hea := Int.emod_add_ediv a m
  have heb := Int.emod_add_ediv b m
  have hd : a - b = (a % m - b % m) + m * (a / m - b / m) := by
    rw [mul_sub]
    linarith
  by_cases hr : a % m - b % m < 0
  · rw [if_pos hr]
    have ht1 : 1 ≤ a / m - b / m := by
      by_contra hc
      have : a / m - b / m ≤ 0 := by omega
      have := mul_nonpos_of_nonneg_of_nonpos hm.le this
      linarith
    have ht2 : a / m - b / m < 2 := by
      by_contra hc
      have : m * 2 ≤ m * (a / m - b / m) := mul_le_mul_of_nonneg_left (not_lt.mp hc) hm.le
      linarith
    have ht : a / m - b / m = 1 := by omega
    rw [ht] at hd
    linarith
  · rw [if_neg hr]
    have ht1 : 0 ≤ a / m - b / m := by
      by_contra hc
      have : a / m - b / m ≤ -1 := by omega
      have : m * (a / m - b / m) ≤ m * (-1) := mul_le_mul_of_nonneg_left this hm.le
      linarith
    have ht2 : a / m - b / m < 1 := by
      by_contra hc
      have : m * 1 ≤ m * (a / m - b / m) := mul_le_mul_of_nonneg_left (not_lt.mp hc) hm.le
      linarith
    have ht : a / m - b / m = 0 := by omega
    rw [ht] at hd
    linarith

theorem wrap_sub_emod (a b m : Int) :
    (if a % m - b % m < 0 then a % m - b % m + m else a % m - b % m) % m = (a - b) % m := by
  split
  · rw [Int.add_emod_self, ← Int.sub_emod]
  · rw [← Int.sub_emod]

/-- When the remainder left by the estimate is in `[0, 2^(k+1))`, it is the
value that enters the loop. -/
theorem preLoop_eq_sub {p u : Int} {k : Nat} (hk : k < 2 ^ 63 - 1) {z : Int}
    (h0 : 0 ≤ z - Barrett.quotEst ⟨p, u, k⟩ z * p)
    (h1 : z - Barrett.quotEst ⟨p, u, k⟩ z * p < 2 ^ (k + 1)) :
    Barrett.preLoop ⟨p, u, k⟩ z = z - Barrett.quotEst ⟨p, u, k⟩ z * p := by
  rw [preLoop_eq_quotEst]
  simp only
  rw [bigExp_succ hk]
  exact wrap_sub _ _ _ (by positivity) h0 h1

/-! ## Boundary inputs, termination and the correction step -/

/-- C11. For a modulus `p > 0` of bit length at most `256`, `Reduce` on the
value returned by `NewBarrett` returns `0` for the input `0` and `p - 1` for
the input `p - 1`, without error and whatever the iteration bound. -/
theorem reduce_zero_and_pred (le : BitCmp) (hs : le.Sound) (p : Int) (hp : 0 < p)
    (hbits : bitLen p ≤ 256) :
    ∃ b, NewBarrett le p = some b ∧
      (∀ fuel, b.Reduce fuel 0 = some (Result.ok 0)) ∧
      (∀ fuel, b.Reduce fuel (p - 1) = some (Result.ok (p - 1))) := by
  have h256 : p < 2 ^ 256 := (bitLen_le_of_pos hp 256).mp hbits
  obtain ⟨hmem, hlt, -⟩ := selectK_spec hs hp h256.le
  have hk1 : 1 ≤ selectK le p := by
    rcases hmem with h | h | h | h | h <;> rw [h] <;> norm_num
  have hk63 : selectK le p < 2 ^ 63 - 1 := by
    rcases hmem with h | h | h | h | h <;> rw [h] <;> norm_num
  have hd := uintDouble_selectK le p
  have hpow : (2 : Int) ^ (selectK le p + 1) ≤ 2 ^ (2 * selectK le p) :=
    pow_le_pow_right₀ (by norm_num) (by omega)
  refine ⟨_, newBarrett_eq le p (ne_of_gt hp), fun fuel => ?_, fun fuel => ?_⟩
  · rw [reduce_ok_iff]
    refine ⟨by simp only [hd]; positivity, ?_⟩
    simp only
    rw [preLoop_of_lt hk1 hk63 hp le_rfl hp hlt]
    exact subLoop_of_lt _ _ _ hp
  · rw [reduce_ok_iff]
    refine ⟨by simp only [hd]; omega, ?_⟩
    simp only
    rw [preLoop_of_lt hk1 hk63 hp (by omega) (by omega) hlt]
    exact subLoop_of_lt _ _ _ (by omega)

/-- Witness for C11: the modulus `N` of the test. -/
theorem reduce_zero_and_pred_witness :
    ∃ b, NewBarrett exactLe N = some b ∧
      (∀ fuel, b.Reduce fuel 0 = some (Result.ok 0)) ∧
      (∀ fuel, b.Reduce fuel (N - 1) = some (Result.ok (N - 1))) :=
  reduce_zero_and_pred exactLe exactLe_sound N (by decide) (by decide)

/-- C13. For a `Barrett` value with positive modulus, whatever its factor and
word size, and every integer `z`, `Reduce` terminates: either the range check
fails and the error is returned at once, or the loop exits after exactly
`⌊r / _p⌋` subtractions, `r ≥ 0` being the value that enters it: with fewer
iterations allowed it is still running, with that many it has returned. -/
theorem reduce_terminates (b : Barrett) (z : Int) (hp : 0 < b._p) :
    (2 ^ uintDouble b._k ≤ z → ∀ fuel, b.Reduce fuel z = some (Result.err rangeMsg)) ∧
    (z < 2 ^ uintDouble b._k →
      0 ≤ b.preLoop z ∧
      (∀ fuel, (b.preLoop z / b._p).toNat ≤ fuel →
        b.Reduce fuel z = some (Result.ok (b.preLoop z % b._p))) ∧
      (∀ fuel, fuel < (b.preLoop z / b._p).toNat → b.Reduce fuel z = none)) := by
  constructor
  · intro hz fuel
    rw [reduce_err_iff]
    exact ⟨hz, rfl⟩
  · intro hz
    have hpre := (preLoop_bounds b z).1
    refine ⟨hpre, fun fuel hf => ?_, fun fuel hf => ?_⟩
    · rw [reduce_ok_iff]
      exact ⟨hz, subLoop_of_fuel fuel b._p _ hp hpre hf⟩
    · cases hres : b.Reduce fuel z with
      | none => rfl
      | some res =>
        cases res with
        | err msg =>
          rw [reduce_err_iff] at hres
          omega
        | ok r =>
          exfalso
          rw [reduce_ok_iff] at hres
          exact absurd hf (not_lt.mpr (subLoop_fuel_ge fuel b._p _ r hp hpre hres.2))

/-- Witness for C13: modulus `7`, word size `16`, input `100`. -/
theorem reduce_terminates_witness :
    Barrett.Reduce ⟨7, 613566756, 16⟩ 14 100 = some (Result.ok 2) ∧
    Barrett.Reduce ⟨7, 613566756, 16⟩ 13 100 = none :=
  ⟨by decide,
    ((reduce_terminates ⟨7, 613566756, 16⟩ 100 (by decide)).2 (by decide)).2.2 13
      (by decide)⟩

/-- C15. For a `Barrett` value with word size `k ≥ 1` (small enough for `k + 1`
not to overflow), the value `r` left by the correction step
`if r < 0 then r = r + k1` satisfies `0 ≤ r < 2^(k+1)` and
`r ≡ z - q3 * _p (mod 2^(k+1))`, where `q3 = ⌊⌊z / 2^(k-1)⌋ * _u / 2^(k+1)⌋` is
the estimate the code computes.  This holds for every modulus and every `z`,
in particular for `_p > 0` and `0 ≤ z < 2^(2k)`. -/
theorem preLoop_correction (b : Barrett) (z : Int) (hk1 : 1 ≤ b._k)
    (hk : b._k < 2 ^ 63 - 1) :
    b.quotEst z = z / 2 ^ (b._k - 1) * b._u / 2 ^ (b._k + 1) ∧
    0 ≤ b.preLoop z ∧ b.preLoop z < 2 ^ (b._k + 1) ∧
    b.preLoop z % 2 ^ (b._k + 1) = (z - b.quotEst z * b._p) % 2 ^ (b._k + 1) := by
  have hb := preLoop_bounds b z
  rw [bigExp_succ hk] at hb
  refine ⟨quotEst_eq hk1 hk z, hb.1, hb.2, ?_⟩
  rw [preLoop_eq_quotEst, bigExp_succ hk]
  exact wrap_sub_emod _ _ _

/-- Witness for C15: modulus `65353`, word size `16`, input `4294934527`; the
value entering the loop is `354` and `z - q3 * p = 131426 = 354 + 2^17`. -/
theorem preLoop_correction_witness :
    Barrett.preLoop ⟨65353, 65719, 16⟩ 4294934527 = 354 ∧
    Barrett.quotEst ⟨65353, 65719, 16⟩ 4294934527 = 65717 ∧
    Barrett.preLoop ⟨65353, 65719, 16⟩ 4294934527 % 2 ^ (16 + 1) =
      (4294934527 - Barrett.quotEst ⟨65353, 65719, 16⟩ 4294934527 * 65353) % 2 ^ (16 + 1) :=
  ⟨by decide, by decide,
    (preLoop_correction ⟨65353, 65719, 16⟩ 4294934527 (by decide) (by decide)).2.2.2⟩

/-- C16. For `k ≥ 1`, a modulus `p` with `2^(k-1) ≤ p < 2^k`, the factor
`⌊2^(2k) / p⌋` and `0 ≤ z < 2^(2k)`, the estimate `q3` computed by `Reduce`
satisfies `⌊z / p⌋ - 2 ≤ q3 ≤ ⌊z / p⌋`. -/
theorem quotEst_within_two (p z : Int) (k : Nat) (hk1 : 1 ≤ k) (hk : k < 2 ^ 63 - 1)
    (hlow : 2 ^ (k - 1) ≤ p) (_hhigh : p < 2 ^ k) (hz0 : 0 ≤ z) (hz : z < 2 ^ (2 * k)) :
    z / p - 2 ≤ Barrett.quotEst ⟨p, 2 ^ (2 * k) / p, k⟩ z ∧
    Barrett.quotEst ⟨p, 2 ^ (2 * k) / p, k⟩ z ≤ z / p := by
  have hA : (0 : Int) < 2 ^ (k - 1) := by positivity
  have hp : 0 < p := lt_of_lt_of_le hA hlow
  obtain ⟨-, hle, hlt⟩ := quotEst_bounds hk1 hk hp hz0 hz
  constructor
  · have h3 : z < (Barrett.quotEst ⟨p, 2 ^ (2 * k) / p, k⟩ z + 3) * p := by linarith
    have := (Int.ediv_lt_iff_lt_mul hp).mpr h3
    omega
  · exact (Int.le_ediv_iff_mul_le hp).mpr hle

/-- Witness for C16: `k = 16`, `p = 65353`, `z = 4294934527`, where the
estimate `65717` is `2` below the quotient `65719`. -/
theorem quotEst_within_two_witness :
    (4294934527 : Int) / 65353 - 2 ≤
      Barrett.quotEst ⟨65353, 2 ^ (2 * 16) / 65353, 16⟩ 4294934527 ∧
    Barrett.quotEst ⟨65353, 2 ^ (2 * 16) / 65353, 16⟩ 4294934527 ≤
      (4294934527 : Int) / 65353 :=
  quotEst_within_two 65353 4294934527 16 (by decide) (by decide) (by decide) (by decide)
    (by decide) (by decide)

/-- C17. For `k ≥ 2`, a modulus `0 < p ≤ 3·2^(k-2)`, the factor `⌊2^(2k) / p⌋`
and `0 ≤ z < 2^(2k)`, the remainder left by the estimate satisfies
`0 ≤ z - q3 * p < 2^(k+1)`, it is the value that enters the loop, and `Reduce`
returns `z mod p` (once the iteration bound reaches `⌊(z - q3 * p) / p⌋`). -/
theorem reduce_correct_of_le (p z : Int) (k : Nat) (hk2 : 2 ≤ k) (hk : k < 2 ^ 63 - 1)
    (hp : 0 < p) (hple : p ≤ 3 * 2 ^ (k - 2)) (hz0 : 0 ≤ z) (hz : z < 2 ^ (2 * k)) :
    0 ≤ z - Barrett.quotEst ⟨p, 2 ^ (2 * k) / p, k⟩ z * p ∧
    z - Barrett.quotEst ⟨p, 2 ^ (2 * k) / p, k⟩ z * p < 2 ^ (k + 1) ∧
    Barrett.preLoop ⟨p, 2 ^ (2 * k) / p, k⟩ z =
      z - Barrett.quotEst ⟨p, 2 ^ (2 * k) / p, k⟩ z * p ∧
    ∀ fuel, ((z - Barrett.quotEst ⟨p, 2 ^ (2 * k) / p, k⟩ z * p) / p).toNat ≤ fuel →
      Barrett.Reduce ⟨p, 2 ^ (2 * k) / p, k⟩ fuel z = some (Result.ok (z % p)) := by
  obtain ⟨-, hle, hlt⟩ := quotEst_bounds (by omega) hk hp hz0 hz
  have e1 : (2 : Int) ^ (k - 1) = 2 * 2 ^ (k - 2) := by
    rw [← pow_succ']
    congr 1
    omega
  have e2 : (2 : Int) ^ (k + 1) = 8 * 2 ^ (k - 2) := by
    have : (8 : Int) = 2 ^ 3 := by norm_num
    rw [this, ← pow_add]
    congr 1
    omega
  have h0 : 0 ≤ z - Barrett.quotEst ⟨p, 2 ^ (2 * k) / p, k⟩ z * p := by linarith
  have h1 : z - Barrett.quotEst ⟨p, 2 ^ (2 * k) / p, k⟩ z * p < 2 ^ (k + 1) := by
    rw [e2]
    rw [e1] at hlt
    linarith
  have hpre := preLoop_eq_sub hk h0 h1
  refine ⟨h0, h1, hpre, fun fuel hf => ?_⟩
  rw [reduce_ok_iff]
  refine ⟨by simp only; rw [uintDouble_eq (by omega)]; exact hz, ?_⟩
  simp only
  rw [hpre]
  have hmod : (z - Barrett.quotEst ⟨p, 2 ^ (2 * k) / p, k⟩ z * p) % p = z % p := by
    have : z - Barrett.quotEst ⟨p, 2 ^ (2 * k) / p, k⟩ z * p =
        z + (-Barrett.quotEst ⟨p, 2 ^ (2 * k) / p, k⟩ z) * p := by ring
    rw [this, Int.add_mul_emod_self]
  rw [← hmod]
  exact subLoop_of_fuel fuel p _ hp h0 hf

/-- Witness for C17: `k = 16`, `p = 49152 = 3·2^14`, `z = 2^32 - 1`. -/
theorem reduce_correct_of_le_witness :
    Barrett.Reduce ⟨49152, 2 ^ (2 * 16) / 49152, 16⟩ 2 (2 ^ 32 - 1) =
      some (Result.ok ((2 ^ 32 - 1) % 49152)) :=
  (reduce_correct_of_le 49152 (2 ^ 32 - 1) 16 (by decide) (by decide) (by decide)
    (by decide) (by decide) (by decide)).2.2.2 2 (by decide)

/-! ## Radix 2 and the number of subtractions -/

/-- C12 (the code at failing inputs). With `k` the exact bit length of `p` and
`u = ⌊2^(2k) / p⌋`: for `p = 65353` (`k = 16`, `u = 65719`) and
`z = 4294934527 < 2^32`, `Reduce` returns `354` while `z mod p = 720`; for
`p = 57` (`k = 6`, `u = 71`) and `z = 4061 < 2^12`, `Reduce` returns `0` while
`z mod p = 14`.  In both cases `z - q3 * p` is at least `2^(k+1)`. -/
theorem reduce_exact_bitLen_wrong :
    (bitLen 65353 = 16 ∧ (2 : Int) ^ (2 * 16) / 65353 = 65719 ∧
      (0 : Int) ≤ 4294934527 ∧ (4294934527 : Int) < 2 ^ (2 * 16) ∧
      (∀ fuel, Barrett.Reduce ⟨65353, 65719, 16⟩ fuel 4294934527 = some (Result.ok 354)) ∧
      (4294934527 : Int) % 65353 = 720 ∧
      (2 : Int) ^ (16 + 1) ≤
        4294934527 - Barrett.quotEst ⟨65353, 65719, 16⟩ 4294934527 * 65353) ∧
    (bitLen 57 = 6 ∧ (2 : Int) ^ (2 * 6) / 57 = 71 ∧
      (0 : Int) ≤ 4061 ∧ (4061 : Int) < 2 ^ (2 * 6) ∧
      (∀ fuel, Barrett.Reduce ⟨57, 71, 6⟩ fuel 4061 = some (Result.ok 0)) ∧
      (4061 : Int) % 57 = 14 ∧
      (2 : Int) ^ (6 + 1) ≤ 4061 - Barrett.quotEst ⟨57, 71, 6⟩ 4061 * 57) := by
  refine ⟨⟨by decide, by decide, by decide, by decide, fun fuel => ?_, by decide, by decide⟩,
    ⟨by decide, by decide, by decide, by decide, fun fuel => ?_, by decide, by decide⟩⟩
  · rw [reduce_ok_iff]
    refine ⟨by decide, ?_⟩
    have hpre : Barrett.preLoop ⟨65353, 65719, 16⟩ 4294934527 = 354 := by decide
    rw [hpre]
    exact subLoop_of_lt _ _ _ (by decide)
  · rw [reduce_ok_iff]
    refine ⟨by decide, ?_⟩
    have hpre : Barrett.preLoop ⟨57, 71, 6⟩ 4061 = 0 := by decide
    rw [hpre]
    exact subLoop_of_lt _ _ _ (by decide)

/-- C14 (counterexample). For the modulus `1`, `NewBarrett` stores word size
`16` and factor `2^32`; on the input `3` the estimate is `0`, the value
entering the loop is `3 = 3·p`, and the loop body runs three times: with two
iterations allowed it is still running. -/
theorem reduce_loop_three_times :
    (∀ le : BitCmp, le.Sound → NewBarrett le 1 = some ⟨1, 2 ^ 32, 16⟩) ∧
    bitLen 1 ≤ 256 ∧ (3 : Int) < 2 ^ (2 * 16) ∧
    Barrett.preLoop ⟨1, 2 ^ 32, 16⟩ 3 = 3 ∧ ¬ ((3 : Int) < 3 * 1) ∧
    Barrett.Reduce ⟨1, 2 ^ 32, 16⟩ 2 3 = none ∧
    Barrett.Reduce ⟨1, 2 ^ 32, 16⟩ 3 3 = some (Result.ok 0) := by
  refine ⟨fun le hs => ?_, by decide, by decide, by decide, by decide, by decide, by decide⟩
  rw [newBarrett_small hs (by decide) (by decide)]
  rfl

/-- C14 (amended). For a modulus `p > 0` of bit length at most `256` and
`0 ≤ z < 2^(2k)`, `k` the word size stored by `NewBarrett`: the value entering
the loop is below `2^(k+1)`; and when `p ≥ 2^(k-1)` it is below `3·p`, so the
loop body runs at most twice: `Reduce` has returned as soon as two iterations
are allowed. -/
theorem reduce_loop_at_most_twice (le : BitCmp) (hs : le.Sound) (p z : Int) (hp : 0 < p)
    (hbits : bitLen p ≤ 256) (hz0 : 0 ≤ z) :
    ∃ b, NewBarrett le p = some b ∧
      (z < 2 ^ (2 * b._k) →
        b.preLoop z < 2 ^ (b._k + 1) ∧
        (2 ^ (b._k - 1) ≤ p →
          b.preLoop z < 3 * p ∧
          ∀ fuel, 2 ≤ fuel → b.Reduce fuel z = some (Result.ok (b.preLoop z % p)))) := by
  have h256 : p < 2 ^ 256 := (bitLen_le_of_pos hp 256).mp hbits
  obtain ⟨hmem, -, -⟩ := selectK_spec hs hp h256.le
  have hk1 : 1 ≤ selectK le p := by
    rcases hmem with h | h | h | h | h <;> rw [h] <;> norm_num
  have hk63 : selectK le p < 2 ^ 63 - 1 := by
    rcases hmem with h | h | h | h | h <;> rw [h] <;> norm_num
  have hd := uintDouble_selectK le p
  refine ⟨_, newBarrett_eq le p (ne_of_gt hp), fun hz => ?_⟩
  simp only at hz ⊢
  have hb := preLoop_bounds ⟨p, 2 ^ (2 * selectK le p) / p, selectK le p⟩ z
  rw [bigExp_succ hk63] at hb
  refine ⟨hb.2, fun hlow => ?_⟩
  have e1 : (2 : Int) ^ (selectK le p + 1) = 4 * 2 ^ (selectK le p - 1) := by
    have : (4 : Int) = 2 ^ 2 := by norm_num
    rw [this, ← pow_add]
    congr 1
    omega
  have h3 : Barrett.preLoop ⟨p, 2 ^ (2 * selectK le p) / p, selectK le p⟩ z < 3 * p := by
    by_cases hc : (2 : Int) ^ (selectK le p + 1) < 3 * p
    · exact lt_trans hb.2 hc
    · obtain ⟨-, hle, hlt⟩ := quotEst_bounds hk1 hk63 hp hz0 hz
      have h0 : 0 ≤ z -
          Barrett.quotEst ⟨p, 2 ^ (2 * selectK le p) / p, selectK le p⟩ z * p := by linarith
      have h1 : z - Barrett.quotEst ⟨p, 2 ^ (2 * selectK le p) / p, selectK le p⟩ z * p <
          2 ^ (selectK le p + 1) := by linarith
      rw [preLoop_eq_sub hk63 h0 h1]
      linarith
  refine ⟨h3, fun fuel hf => ?_⟩
  rw [reduce_ok_iff]
  refine ⟨by simp only [hd]; exact hz, ?_⟩
  simp only
  apply subLoop_of_fuel fuel p _ hp hb.1
  have := (Int.ediv_lt_iff_lt_mul hp).mpr h3
  omega

/-- Witness for C14 (amended): the modulus `N` and the input of the test. -/
theorem reduce_loop_at_most_twice_witness :
    ∃ b, NewBarrett exactLe N = some b ∧
      (testX < 2 ^ (2 * b._k) →
        b.preLoop testX < 2 ^ (b._k + 1) ∧
        (2 ^ (b._k - 1) ≤ N →
          b.preLoop testX < 3 * N ∧
          ∀ fuel, 2 ≤ fuel → b.Reduce fuel testX = some (Result.ok (b.preLoop testX % N)))) :=
  reduce_loop_at_most_twice exactLe exactLe_sound N testX (by decide) (by decide) (by decide)

end BarrettReduce
